import Mathlib

/-!
Verification of the label-matching and validation pipeline of `main.py`:
aggregation of source tables into a lookup mapping (`build_aggregated_costs`),
the rule-based semantic gate (`is_semantic_match`), the difflib-based fuzzy
fallback matcher (`fallback_match`), the retrying inference client
(`call_groq`), and the per-placeholder orchestration loop
(`populate_template_excel`).

Python strings are modelled as `List Char`.  `str.lower` is modelled with
`Char.toLower` (the strings in play are ASCII apart from the marker glyph
`◦`, which both leave unchanged).  Machine floats are modelled by exact
rationals; for the short strings and small counters in play the float
comparisons of the code agree with the exact rational ones.
-/

/-- Python `needle in hay` for strings: substring containment. -/
def containsSub (hay needle : List Char) : Bool :=
  hay.tails.any (fun t => needle.isPrefixOf t)

/-- True when at least one word of `needles` occurs inside `hay`
(`any(w in hay for w in needles)`). -/
def containsAny (hay : List Char) (needles : List (List Char)) : Bool :=
  needles.any (fun w => containsSub hay w)

/-- Python `s.lower()` (ASCII case mapping suffices for this program). -/
def toLowerStr (s : List Char) : List Char := s.map Char.toLower

/-- Remove the characters satisfying `p` from both ends of `s`
(Python `str.strip`). -/
def stripBy (p : Char → Bool) (s : List Char) : List Char :=
  ((s.dropWhile p).reverse.dropWhile p).reverse

/-- Python `s.strip()` (whitespace from both ends). -/
def pyTrim (s : List Char) : List Char := stripBy Char.isWhitespace s

/-- The staffing/role trigger words of `is_semantic_match` (main.py line 55). -/
def staffWords : List (List Char) :=
  ["nurse".toList, "care worker".toList, "care minutes".toList,
   "personal care".toList, "staff".toList, "management".toList,
   "allied health".toList]

/-- The bed-day words of `is_semantic_match` (main.py lines 56 and 59). -/
def bedWords : List (List Char) :=
  ["bedday".toList, "occupiedbeddays".toList, "availablebeddays".toList]

/-- Shallow embedding of `is_semantic_match` (main.py lines 51-65). -/
def is_semantic_match (placeholder matched_key : List Char) : Bool :=
  let placeholder_lower := toLowerStr placeholder
  let matched_key_lower := toLowerStr matched_key
  if containsAny placeholder_lower staffWords &&
      containsAny matched_key_lower bedWords then false
  else if containsSub placeholder_lower "bed day".toList &&
      !(containsAny matched_key_lower bedWords) then false
  else if containsSub placeholder_lower "rate".toList &&
      !(containsSub matched_key_lower "rate".toList) then false
  else true

/-- Rule 1 as the spec words it: a staffing/role term in the placeholder
forbids every bed-day term in the key. -/
def rule1Spec (placeholder matched_key : List Char) : Prop :=
  (∃ w ∈ staffWords, containsSub (toLowerStr placeholder) w = true) →
    ∀ b ∈ bedWords, containsSub (toLowerStr matched_key) b = false

/-- Rule 2 as the spec words it: "bed day" in the placeholder requires some
bed-day term in the key. -/
def rule2Spec (placeholder matched_key : List Char) : Prop :=
  containsSub (toLowerStr placeholder) "bed day".toList = true →
    ∃ b ∈ bedWords, containsSub (toLowerStr matched_key) b = true

/-- Rule 3 as the spec words it: "rate" in the placeholder requires "rate"
in the key. -/
def rule3Spec (placeholder matched_key : List Char) : Prop :=
  containsSub (toLowerStr placeholder) "rate".toList = true →
    containsSub (toLowerStr matched_key) "rate".toList = true

/-- C3: the semantic gate accepts exactly when all three spec rules hold;
the rules combine by logical AND, so the verdict is deterministic and
independent of the order in which the rules are evaluated. -/
theorem is_semantic_match_iff_rules (placeholder matched_key : List Char) :
    is_semantic_match placeholder matched_key = true ↔
      (rule1Spec placeholder matched_key ∧ rule2Spec placeholder matched_key ∧
        rule3Spec placeholder matched_key) := by
  cases hA : containsAny (toLowerStr placeholder) staffWords <;>
    cases hB : containsAny (toLowerStr matched_key) bedWords <;>
      cases hC : containsSub (toLowerStr placeholder) "bed day".toList <;>
        cases hR1 : containsSub (toLowerStr placeholder) "rate".toList <;>
          cases hR2 : containsSub (toLowerStr matched_key) "rate".toList <;>
            simp_all [is_semantic_match, rule1Spec, rule2Spec, rule3Spec,
              containsAny, List.any_eq_true]

/-- Witness for C3 at a concrete pair: the gate accepts
("◦ Nurse staffing cost", "NurseCost") and the three spec rules hold there. -/
theorem is_semantic_match_iff_rules_witness :
    rule1Spec "◦ Nurse staffing cost".toList "NurseCost".toList ∧
      rule2Spec "◦ Nurse staffing cost".toList "NurseCost".toList ∧
      rule3Spec "◦ Nurse staffing cost".toList "NurseCost".toList :=
  (is_semantic_match_iff_rules "◦ Nurse staffing cost".toList
    "NurseCost".toList).mp (by decide)

/-!
## The fallback matcher (`fallback_match`, main.py lines 67-74)

`fallback_match` relies on `difflib.get_close_matches`, which scores each
candidate `x` against the cleaned placeholder `word` by the
`SequenceMatcher(None, x, word)` ratio: twice the total size of the
recursively chosen longest matching blocks, divided by the sum of the two
lengths.  The strings involved are far shorter than 200 characters, so
difflib's autojunk heuristic never fires, and with no junk the longest
matching block of a window is exactly the longest common run, tie-broken by
the earliest start in `x` and then the earliest start in `word`.  Ratios are
modelled as exact rationals; for the short strings in play the float
comparisons against the 0.4 cutoff agree with the exact comparisons against
2/5 (distinct small-denominator rationals are far further apart than any
rounding error).
-/

/-- Length of the common run of equal characters at the heads of `a`, `b`. -/
def commonRun : List Char → List Char → Nat
  | a :: as, b :: bs => if a = b then commonRun as bs + 1 else 0
  | _, _ => 0

/-- Length of the matching run starting at positions `i` of `a` and `j` of
`b`, capped by the window ends `ahi`, `bhi`. -/
def windowRun (a b : List Char) (i j ahi bhi : Nat) : Nat :=
  min (commonRun (a.drop i) (b.drop j)) (min (ahi - i) (bhi - j))

/-- `SequenceMatcher.find_longest_match` on the window
`[alo, ahi) × [blo, bhi)` (no junk): the longest matching run, tie-broken by
the smallest start in `a`, then the smallest start in `b`; `(alo, blo, 0)`
when the window has no match. -/
def flm (a b : List Char) (alo ahi blo bhi : Nat) : Nat × Nat × Nat :=
  ((List.range' alo (ahi - alo)).flatMap fun i =>
      (List.range' blo (bhi - blo)).map fun j => (i, j)).foldl
    (fun best ij =>
      let k := windowRun a b ij.1 ij.2 ahi bhi
      if best.2.2 < k then (ij.1, ij.2, k) else best)
    (alo, blo, 0)

/-- Total size of the matching blocks chosen by
`SequenceMatcher.get_matching_blocks`: recursively take the longest match of
the window and recurse on the windows to its left and right.  The fuel is
one more than the `a`-window width, which strictly decreases, so it never
runs out. -/
def matchesFuel (a b : List Char) : Nat → Nat → Nat → Nat → Nat → Nat
  | 0, _, _, _, _ => 0
  | fuel + 1, alo, ahi, blo, bhi =>
    let r := flm a b alo ahi blo bhi
    if r.2.2 = 0 then 0
    else
      r.2.2 + matchesFuel a b fuel alo r.1 blo r.2.1 +
        matchesFuel a b fuel (r.1 + r.2.2) ahi (r.2.1 + r.2.2) bhi

/-- Total matched size of `SequenceMatcher(None, a, b)`. -/
def matchesTotal (a b : List Char) : Nat :=
  matchesFuel a b (a.length + 1) 0 a.length 0 b.length

/-- `SequenceMatcher.ratio()` as an exact rational
(`2 * matches / (len a + len b)`; 1 when both strings are empty).
Built with `mkRat` so that it evaluates by kernel reduction. -/
def ratioQ (a b : List Char) : ℚ :=
  if a.length + b.length = 0 then 1
  else mkRat (2 * matchesTotal a b) (a.length + b.length)

/-- The 0.4 similarity cutoff of `fallback_match` as an exact rational. -/
def cutoffRat : ℚ := mkRat 2 5

/-- The cutoff is the rational 2/5, i.e. 0.4. -/
theorem cutoffRat_eq : cutoffRat = 2/5 := by
  rw [cutoffRat, Rat.mkRat_eq_divInt, Rat.divInt_eq_div]
  norm_num

/-- Python string comparison `a < b` (lexicographic on code points). -/
def strLt : List Char → List Char → Bool
  | [], [] => false
  | [], _ :: _ => true
  | _ :: _, [] => false
  | a :: as, b :: bs => if a = b then strLt as bs else decide (a < b)

/-- One step of the candidate scan of `difflib.get_close_matches`: keep a
candidate whose ratio reaches the cutoff when it beats the best so far —
`heapq.nlargest` on `(ratio, x)` pairs keeps the larger ratio, ties broken
towards the lexicographically larger string, and the first seen on full
equality. -/
def gcmStep (word : List Char) (best : Option (ℚ × List Char))
    (x : List Char) : Option (ℚ × List Char) :=
  let r := ratioQ x word
  if r < cutoffRat then best
  else
    match best with
    | none => some (r, x)
    | some (br, bx) =>
      if br < r ∨ (br = r ∧ strLt bx x = true) then some (r, x) else best

/-- Scan of the candidate list of `difflib.get_close_matches`. -/
def gcmFold (word : List Char) (best : Option (ℚ × List Char)) :
    List (List Char) → Option (ℚ × List Char)
  | [] => best
  | x :: xs => gcmFold word (gcmStep word best x) xs

/-- `difflib.get_close_matches(word, possibilities, n=1, cutoff=0.4)`,
returning the single best candidate, if any reaches the cutoff. -/
def getCloseMatch1 (word : List Char) (possibilities : List (List Char)) :
    Option (List Char) :=
  (gcmFold word none possibilities).map Prod.snd

/-- The cleaned placeholder used by `fallback_match` (main.py line 68):
strip the marker glyph and blanks from both ends, then lower-case. -/
def cleanedPlaceholder (placeholder : List Char) : List Char :=
  toLowerStr (stripBy (fun c => c = '◦' ∨ c = ' ') placeholder)

/-- Shallow embedding of `fallback_match` (main.py lines 67-74).  The
unreachable case where the best match is absent from the lower-cased key
list (Python would raise `ValueError`) yields `none`. -/
def fallback_match (placeholder : List Char) (keys : List (List Char)) :
    Option (List Char) :=
  let placeholder_clean := cleanedPlaceholder placeholder
  let keys_lower := keys.map toLowerStr
  match getCloseMatch1 placeholder_clean keys_lower with
  | some m => keys.get? (keys_lower.indexOf m)
  | none => none

/-- One `gcmStep` yields either the previous best or the newly seen
candidate. -/
theorem gcmStep_cases (word : List Char) (best : Option (ℚ × List Char))
    (x : List Char) (r : ℚ) (y : List Char)
    (h : gcmStep word best x = some (r, y)) :
    best = some (r, y) ∨ y = x := by
  unfold gcmStep at h
  by_cases hc : ratioQ x word < cutoffRat
  · simp [hc] at h
    exact Or.inl h
  · rcases best with _ | ⟨br, bx⟩
    · simp [hc] at h
      exact Or.inr h.2.symm
    · by_cases hcmp : br < ratioQ x word ∨
        (br = ratioQ x word ∧ strLt bx x = true)
      · simp [hc, hcmp] at h
        exact Or.inr h.2.symm
      · simp [hc, hcmp] at h
        exact Or.inl (by rw [h.1, h.2])

/-- The scan only ever returns a candidate it has seen (or the one it
started with). -/
theorem gcmFold_mem (word : List Char) :
    ∀ (poss : List (List Char)) (best : Option (ℚ × List Char))
      (r : ℚ) (y : List Char), gcmFold word best poss = some (r, y) →
      best = some (r, y) ∨ y ∈ poss := by
  intro poss
  induction poss with
  | nil => intro best r y h; exact Or.inl h
  | cons x xs ih =>
    intro best r y h
    rcases ih (gcmStep word best x) r y h with h' | h'
    · rcases gcmStep_cases word best x r y h' with h'' | h''
      · exact Or.inl h''
      · exact Or.inr (by simp [h''])
    · exact Or.inr (by simp [h'])

/-- If every candidate scores below the cutoff, the scan keeps its initial
value. -/
theorem gcmFold_below (word : List Char) :
    ∀ (poss : List (List Char)) (best : Option (ℚ × List Char)),
      (∀ x ∈ poss, ratioQ x word < cutoffRat) →
      gcmFold word best poss = best := by
  intro poss
  induction poss with
  | nil => intro best _; rfl
  | cons x xs ih =>
    intro best h
    have hx : ratioQ x word < cutoffRat := h x (by simp)
    have : gcmStep word best x = best := by unfold gcmStep; simp [hx]
    calc gcmFold word best (x :: xs) = gcmFold word (gcmStep word best x) xs := rfl
      _ = gcmFold word best xs := by rw [this]
      _ = best := ih best (fun z hz => h z (by simp [hz]))

/-- C4: the fallback matcher only ever returns one of the supplied keys
(hence in its original casing), and returns nothing when every candidate's
similarity ratio to the cleaned lower-cased placeholder is below the
0.4 cutoff. -/
theorem fallback_match_sound (placeholder : List Char)
    (keys : List (List Char)) :
    (∀ k, fallback_match placeholder keys = some k → k ∈ keys) ∧
      ((∀ k ∈ keys,
          ratioQ (toLowerStr k) (cleanedPlaceholder placeholder) < 2/5) →
        fallback_match placeholder keys = none) := by
  constructor
  · intro k h
    simp only [fallback_match] at h
    cases hm : getCloseMatch1 (cleanedPlaceholder placeholder)
        (keys.map toLowerStr) with
    | none => rw [hm] at h; exact absurd h (by simp)
    | some m =>
      rw [hm] at h
      exact List.get?_mem h
  · intro hall
    have hnone : gcmFold (cleanedPlaceholder placeholder) none
        (keys.map toLowerStr) = none := by
      apply gcmFold_below
      intro x hx
      simp only [List.mem_map] at hx
      obtain ⟨k, hk, rfl⟩ := hx
      rw [cutoffRat_eq]
      exact hall k hk
    simp [fallback_match, getCloseMatch1, hnone]

set_option maxRecDepth 100000 in
/-- Witness for C4: with the single key "availablebeddays", whose ratio
against the cleaned "nurse" is 2/21 < 2/5, the fallback returns nothing. -/
theorem fallback_match_sound_witness :
    fallback_match "◦ nurse".toList ["availablebeddays".toList] = none :=
  (fallback_match_sound "◦ nurse".toList
    ["availablebeddays".toList]).2 (by
      intro k hk
      simp only [List.mem_singleton] at hk
      subst hk
      rw [← cutoffRat_eq]
      decide)

/-- `indexOf` returns the first position holding `a`. -/
theorem indexOf_eq_of_first {α : Type} [BEq α] [LawfulBEq α] :
    ∀ (l : List α) (a : α) (i : Nat) (h : i < l.length),
      l.get ⟨i, h⟩ = a →
      (∀ j (hj : j < l.length), j < i → l.get ⟨j, hj⟩ ≠ a) →
      l.indexOf a = i := by
  intro l
  induction l with
  | nil => intro a i h; exact absurd h (by simp)
  | cons x xs ih =>
    intro a i h hget hfirst
    cases i with
    | zero =>
      have hxa : x = a := by simpa using hget
      simp [List.indexOf_cons, hxa]
    | succ i =>
      have hxa : ¬(x == a) = true := by
        have := hfirst 0 (by simp) (Nat.succ_pos i)
        simp at this
        simpa using this
      have hi : i < xs.length := by simpa using h
      have hrec : xs.indexOf a = i := by
        apply ih a i hi
        · simpa using hget
        · intro j hj hji
          have := hfirst (j + 1) (by simpa using hj) (by omega)
          simpa using this
      simp [List.indexOf_cons, hxa, hrec]

/-- C9: when the best lower-cased match occurs at several positions of the
key list, `fallback_match` returns the key at the FIRST position whose
lower-casing equals the best match — which may be an original-cased key
other than the candidate the similarity scan actually selected. -/
theorem fallback_match_first_occurrence (placeholder : List Char)
    (keys : List (List Char)) (m : List Char) (i : Nat) (h : i < keys.length)
    (hbest : getCloseMatch1 (cleanedPlaceholder placeholder)
      (keys.map toLowerStr) = some m)
    (hi : toLowerStr (keys.get ⟨i, h⟩) = m)
    (hfirst : ∀ j (hj : j < keys.length), j < i →
      toLowerStr (keys.get ⟨j, hj⟩) ≠ m) :
    fallback_match placeholder keys = some (keys.get ⟨i, h⟩) := by
  have hlen : i < (keys.map toLowerStr).length := by simpa using h
  have hidx : (keys.map toLowerStr).indexOf m = i := by
    apply indexOf_eq_of_first (keys.map toLowerStr) m i hlen
    · simpa using hi
    · intro j hj hji
      have := hfirst j (by simpa using hj) hji
      simpa using this
  simp only [fallback_match]
  rw [hbest]
  show keys.get? ((keys.map toLowerStr).indexOf m) = some (keys.get ⟨i, h⟩)
  rw [hidx]
  exact List.get?_eq_get h

/-- Witness for C9: the keys "AB" and "ab" share the lower-casing "ab"; on
placeholder "◦ ab" the fallback returns the first of them, "AB". -/
theorem fallback_match_first_occurrence_witness :
    fallback_match "◦ ab".toList ["AB".toList, "ab".toList] =
      some "AB".toList := by
  have := fallback_match_first_occurrence "◦ ab".toList
    ["AB".toList, "ab".toList] "ab".toList 0 (by decide) (by decide)
    (by decide) (by intro j hj hji; omega)
  simpa using this

/-!
## The aggregator (`build_aggregated_costs`, main.py lines 76-89)

A source table (the result of `pd.read_csv`) is a list of named columns,
each either numeric or non-numeric; `read_csv` renames duplicate headers,
so column names are distinct.  `select_dtypes(include='number')` keeps the
numeric columns only.  The running mapping `combined` is a Python dict,
modelled as an association list with in-place update; its keys are either
strings (column names) or numbers (group keys of a numeric category
column).
-/

/-- A column of a source table: numeric or non-numeric. -/
inductive ColData where
  | num : List ℚ → ColData
  | str : List String → ColData

/-- A source table: named columns in order. -/
abbrev Table := List (String × ColData)

/-- A key of the aggregated dict: a column-name string or a numeric group
key. -/
inductive AKey where
  | str : String → AKey
  | num : ℚ → AKey
deriving DecidableEq

/-- Python dict assignment `m[k] = v`: replace in place when the key is
present, append otherwise. -/
def dictSet {α β : Type} [DecidableEq α] : List (α × β) → α → β → List (α × β)
  | [], k, v => [(k, v)]
  | p :: m, k, v => if p.1 = k then (k, v) :: m else p :: dictSet m k v

/-- Python dict lookup `m.get(k)`. -/
def dictGet {α β : Type} [DecidableEq α] : List (α × β) → α → Option β
  | [], _ => none
  | p :: m, k => if p.1 = k then some p.2 else dictGet m k

/-- Python `combined.update(d)`: fold the entries of `d` into `combined`,
overwriting per key. -/
def dictUpdate {α β : Type} [DecidableEq α] (m : List (α × β))
    (l : List (α × β)) : List (α × β) :=
  l.foldl (fun acc p => dictSet acc p.1 p.2) m

/-- `df.select_dtypes(include='number')`: the numeric columns, in order. -/
def numericCols (t : Table) : List (String × List ℚ) :=
  t.filterMap fun nc =>
    match nc.2 with
    | ColData.num vs => some (nc.1, vs)
    | ColData.str _ => none

/-- Column membership test `name in df.columns`. -/
def hasCol (df : List (String × List ℚ)) (n : String) : Bool :=
  df.any (fun c => c.1 = n)

/-- The values of the column named `n` (empty when absent; unused then). -/
def getCol (df : List (String × List ℚ)) (n : String) : List ℚ :=
  match df.find? (fun c => c.1 = n) with
  | some c => c.2
  | none => []

/-- `df.groupby(cat)[amt].sum().to_dict()`: for each distinct category
value, the sum of the amounts in its rows.  The keys are exactly the
distinct category values, each occurring once. -/
def groupSum (cats amts : List ℚ) : List (ℚ × ℚ) :=
  cats.dedup.map fun c =>
    (c, (((cats.zip amts).filter (fun p => p.1 = c)).map Prod.snd).sum)

/-- The additive branch of the aggregator (main.py lines 87-88):
`combined[col] = combined.get(col, 0) + df[col].sum()` for each numeric
column, in order. -/
def addCols (combined : List (AKey × ℚ)) (df : List (String × List ℚ)) :
    List (AKey × ℚ) :=
  df.foldl
    (fun acc c =>
      dictSet acc (AKey.str c.1) ((dictGet acc (AKey.str c.1)).getD 0 + c.2.sum))
    combined

/-- Processing of one source table by `build_aggregated_costs`
(main.py lines 80-88). -/
def aggStep (combined : List (AKey × ℚ)) (t : Table) : List (AKey × ℚ) :=
  let df := numericCols t
  if hasCol df "Role" && hasCol df "Cost_AUD" then
    dictUpdate combined
      ((groupSum (getCol df "Role") (getCol df "Cost_AUD")).map
        fun p => (AKey.num p.1, p.2))
  else if hasCol df "Field" && hasCol df "Value" then
    dictUpdate combined
      ((groupSum (getCol df "Field") (getCol df "Value")).map
        fun p => (AKey.num p.1, p.2))
  else
    addCols combined df

/-- Shallow embedding of `build_aggregated_costs` (main.py lines 76-89). -/
def build_aggregated_costs (source_tables : List Table) : List (AKey × ℚ) :=
  source_tables.foldl aggStep []

/-- The original table contains both named columns (of any dtype). -/
def hasPairOrig (t : Table) (n1 n2 : String) : Bool :=
  t.any (fun c => c.1 = n1) && t.any (fun c => c.1 = n2)

/-- A source table with a string-typed `Role` column and a numeric
`Cost_AUD` column: rows (A, 1) and (B, 2). -/
def roleTable : Table :=
  [("Role", ColData.str ["A", "B"]), ("Cost_AUD", ColData.num [1, 2])]

/-- Counterexample to C1: `roleTable` contains the recognized pair
`Role`/`Cost_AUD`, yet the aggregator does NOT group by `Role` — the
`select_dtypes` filter drops the string-typed `Role` column before the
pair check, so the table falls into the additive branch and the mapping
ends up with the single key `Cost_AUD` holding the whole-column sum 3,
with no per-category entry (the claim would require an entry for
category A). -/
theorem build_aggregated_costs_no_grouping_cex :
    hasPairOrig roleTable "Role" "Cost_AUD" = true ∧
      build_aggregated_costs [roleTable] = [(AKey.str "Cost_AUD", 3)] ∧
      dictGet (build_aggregated_costs [roleTable]) (AKey.str "A") = none ∧
      dictGet (build_aggregated_costs [roleTable]) (AKey.str "B") = none := by
  refine ⟨by decide, ?_, ?_, ?_⟩ <;> with_unfolding_all decide

/-- Lookup of a numeric key in a `groupSum` result. -/
def pairLookupN (l : List (ℚ × ℚ)) : AKey → Option ℚ
  | AKey.num q => (l.find? (fun p => p.1 = q)).map Prod.snd
  | AKey.str _ => none

/-- Per-category sums of the Role/Cost_AUD convention of a table. -/
def rolePairs (t : Table) : List (ℚ × ℚ) :=
  groupSum (getCol (numericCols t) "Role") (getCol (numericCols t) "Cost_AUD")

/-- Per-category sums of the Field/Value convention of a table. -/
def fieldPairs (t : Table) : List (ℚ × ℚ) :=
  groupSum (getCol (numericCols t) "Field") (getCol (numericCols t) "Value")

/-- Setting a key makes it readable. -/
theorem dictGet_dictSet_self {α β : Type} [DecidableEq α] :
    ∀ (m : List (α × β)) (k : α) (v : β), dictGet (dictSet m k v) k = some v := by
  intro m k v
  induction m with
  | nil => simp [dictSet, dictGet]
  | cons p m ih =>
    by_cases h : p.1 = k
    · simp [dictSet, dictGet, h]
    · simp [dictSet, dictGet, h, ih]

/-- Setting a key leaves every other key unchanged. -/
theorem dictGet_dictSet_ne {α β : Type} [DecidableEq α] :
    ∀ (m : List (α × β)) (k k' : α) (v : β), k' ≠ k →
      dictGet (dictSet m k v) k' = dictGet m k' := by
  intro m k k' v hne
  induction m with
  | nil => simp [dictSet, dictGet, Ne.symm hne]
  | cons p m ih =>
    by_cases h : p.1 = k
    · have h2 : ¬(p.1 = k') := by rw [h]; exact Ne.symm hne
      simp [dictSet, dictGet, h, Ne.symm hne, h2]
    · by_cases h' : p.1 = k'
      · simp only [dictSet, if_neg h]
        simp [dictGet, h']
      · simp only [dictSet, if_neg h]
        simp [dictGet, h', ih]

/-- A key absent from an association list reads as `none`. -/
theorem dictGet_eq_none_of_not_mem {α β : Type} [DecidableEq α] :
    ∀ (l : List (α × β)) (k : α), k ∉ l.map Prod.fst → dictGet l k = none := by
  intro l
  induction l with
  | nil => intro k _; rfl
  | cons p l ih =>
    intro k hk
    simp only [List.map_cons, List.mem_cons] at hk
    push_neg at hk
    simp [dictGet, Ne.symm hk.1, ih k hk.2]

/-- `dict.update` is last-write-wins per key: a key of the update list
(whose keys are distinct) reads its updated value, any other key reads
from the original dict. -/
theorem dictGet_dictUpdate {α β : Type} [DecidableEq α] :
    ∀ (l m : List (α × β)) (k : α), (l.map Prod.fst).Nodup →
      dictGet (dictUpdate m l) k = (dictGet l k).or (dictGet m k) := by
  intro l
  induction l with
  | nil => intro m k _; simp [dictUpdate, dictGet]
  | cons p l ih =>
    intro m k hnd
    simp only [List.map_cons, List.nodup_cons] at hnd
    have hstep : dictUpdate m (p :: l) = dictUpdate (dictSet m p.1 p.2) l := rfl
    rw [hstep, ih (dictSet m p.1 p.2) k hnd.2]
    by_cases h : p.1 = k
    · subst h
      have hnone : dictGet l p.1 = none :=
        dictGet_eq_none_of_not_mem l p.1 hnd.1
      simp [dictGet, hnone, dictGet_dictSet_self]
    · simp [dictGet, h, dictGet_dictSet_ne m p.1 k p.2 (fun h' => h h'.symm)]

/-- The keys of a `groupSum` are the distinct category values. -/
theorem groupSum_keys (cats amts : List ℚ) :
    (groupSum cats amts).map Prod.fst = cats.dedup := by
  rw [groupSum, List.map_map]
  exact List.map_id cats.dedup

/-- Reading a numeric-keyed image of a pair list is `pairLookupN`. -/
theorem dictGet_map_num :
    ∀ (l : List (ℚ × ℚ)) (k : AKey),
      dictGet (l.map fun p => (AKey.num p.1, p.2)) k = pairLookupN l k := by
  intro l
  induction l with
  | nil => intro k; cases k <;> simp [dictGet, pairLookupN, List.find?]
  | cons p l ih =>
    intro k
    cases k with
    | str s => simp [dictGet, pairLookupN, ih (AKey.str s)]
    | num q =>
      by_cases h : p.1 = q
      · simp [dictGet, pairLookupN, List.find?, h]
      · have := ih (AKey.num q)
        simp [pairLookupN] at this
        simp [dictGet, pairLookupN, List.find?, h, this]

/-- Updating the dict with the numeric-keyed image of a pair list with
distinct keys reads as: the pair list first, the old dict otherwise. -/
theorem dictGet_dictUpdate_num (m : List (AKey × ℚ)) (l : List (ℚ × ℚ))
    (k : AKey) (hnd : (l.map Prod.fst).Nodup) :
    dictGet (dictUpdate m (l.map fun p => (AKey.num p.1, p.2))) k =
      (pairLookupN l k).or (dictGet m k) := by
  have hnd' : ((l.map fun p => (AKey.num p.1, p.2)).map Prod.fst).Nodup := by
    have heq : ((l.map fun p => (AKey.num p.1, p.2)).map Prod.fst) =
        (l.map Prod.fst).map AKey.num := by
      simp only [List.map_map]
      rfl
    rw [heq]
    exact hnd.map (fun a b h => by injection h)
  rw [dictGet_dictUpdate _ m k hnd', dictGet_map_num]

/-- C1 (amended): the aggregator groups-and-sums per category exactly when
the recognized column pair survives the numeric filter, i.e. when both the
category column and the amount column are numeric-typed (Role/Cost_AUD
taking precedence over Field/Value); the per-category sums are then merged
into the running mapping with last-write-wins per key, and since the whole
mapping is a left fold of these steps, later sources overwrite earlier
ones per key rather than summing.  (A table whose category column is
non-numeric falls to the additive branch instead — see the
counterexample.) -/
theorem aggStep_pair_lastWriteWins (m : List (AKey × ℚ)) (t : Table) :
    ((hasCol (numericCols t) "Role" && hasCol (numericCols t) "Cost_AUD") = true →
      ∀ k, dictGet (aggStep m t) k =
        (pairLookupN (rolePairs t) k).or (dictGet m k)) ∧
    ((hasCol (numericCols t) "Role" && hasCol (numericCols t) "Cost_AUD") = false →
      (hasCol (numericCols t) "Field" && hasCol (numericCols t) "Value") = true →
      ∀ k, dictGet (aggStep m t) k =
        (pairLookupN (fieldPairs t) k).or (dictGet m k)) ∧
    (∀ source_tables : List Table,
      build_aggregated_costs (source_tables ++ [t]) =
        aggStep (build_aggregated_costs source_tables) t) := by
  refine ⟨?_, ?_, ?_⟩
  · intro hcond k
    simp only [aggStep, hcond, if_pos]
    exact dictGet_dictUpdate_num m _ k
      (by rw [groupSum_keys]; exact List.nodup_dedup _)
  · intro hcond1 hcond2 k
    simp only [aggStep, hcond1, hcond2, Bool.false_eq_true, if_false, if_pos]
    exact dictGet_dictUpdate_num m _ k
      (by rw [groupSum_keys]; exact List.nodup_dedup _)
  · intro source_tables
    simp [build_aggregated_costs, List.foldl_append]

/-- A source table whose `Role` column parsed as numeric: categories
1, 1, 2 with costs 10, 5, 7. -/
def numRoleTable : Table :=
  [("Role", ColData.num [1, 1, 2]), ("Cost_AUD", ColData.num [10, 5, 7])]

/-- Witness for C1 (amended) at a concrete input: starting from a mapping
holding key 1 ↦ 100 and key "x" ↦ 50, the numeric-Role table overwrites
key 1 with its per-category sum 10 + 5 = 15 (last-write-wins, not 115)
and leaves the unrelated key "x" unchanged. -/
theorem aggStep_pair_lastWriteWins_witness :
    dictGet (aggStep [(AKey.num 1, 100), (AKey.str "x", 50)] numRoleTable)
        (AKey.num 1) = some 15 ∧
      dictGet (aggStep [(AKey.num 1, 100), (AKey.str "x", 50)] numRoleTable)
        (AKey.str "x") = some 50 := by
  have h := (aggStep_pair_lastWriteWins
    [(AKey.num 1, 100), (AKey.str "x", 50)] numRoleTable).1 (by decide)
  constructor
  · rw [h (AKey.num 1)]
    with_unfolding_all decide
  · rw [h (AKey.str "x")]
    with_unfolding_all decide

/-- A numeric column name of the filtered frame names a column of the
original table. -/
theorem hasCol_numericCols_orig (t : Table) (n : String) :
    hasCol (numericCols t) n = true → t.any (fun c => c.1 = n) = true := by
  intro h
  simp only [hasCol, List.any_eq_true, decide_eq_true_eq] at h
  obtain ⟨c, hc, hn⟩ := h
  simp only [numericCols, List.mem_filterMap] at hc
  obtain ⟨a, ha, hfa⟩ := hc
  simp only [List.any_eq_true, decide_eq_true_eq]
  refine ⟨a, ha, ?_⟩
  cases h2 : a.2 with
  | num vs =>
    rw [h2] at hfa
    simp only [Option.some.injEq] at hfa
    rw [← hfa] at hn
    exact hn
  | str vs =>
    rw [h2] at hfa
    exact absurd hfa (by simp)

/-- The filtered numeric column names form a sublist of the original
column names, so distinct original names stay distinct. -/
theorem numericCols_names_sublist (t : Table) :
    List.Sublist ((numericCols t).map Prod.fst) (t.map Prod.fst) := by
  induction t with
  | nil => simp [numericCols]
  | cons a t ih =>
    cases h2 : a.2 with
    | num vs =>
      simp only [numericCols, List.filterMap_cons, h2]
      exact (ih.cons₂ a.1 : _)
    | str vs =>
      simp only [numericCols, List.filterMap_cons, h2]
      exact ih.cons a.1

/-- Columns whose names differ from the key leave that key untouched by
the additive branch. -/
theorem addCols_untouched :
    ∀ (df : List (String × List ℚ)) (m : List (AKey × ℚ)) (k : AKey),
      (∀ c ∈ df, AKey.str c.1 ≠ k) → dictGet (addCols m df) k = dictGet m k := by
  intro df
  induction df with
  | nil => intro m k _; rfl
  | cons c df ih =>
    intro m k hne
    have hstep : addCols m (c :: df) =
        addCols (dictSet m (AKey.str c.1)
          ((dictGet m (AKey.str c.1)).getD 0 + c.2.sum)) df := rfl
    rw [hstep, ih _ k (fun c' hc' => hne c' (by simp [hc']))]
    exact dictGet_dictSet_ne _ _ _ _ (fun h => hne c (by simp) h.symm)

/-- The additive branch adds each numeric column's full sum to whatever the
mapping already holds under the column's name. -/
theorem addCols_accumulates :
    ∀ (df : List (String × List ℚ)) (m : List (AKey × ℚ)),
      (df.map Prod.fst).Nodup →
      ∀ n vs, (n, vs) ∈ df →
        dictGet (addCols m df) (AKey.str n) =
          some ((dictGet m (AKey.str n)).getD 0 + vs.sum) := by
  intro df
  induction df with
  | nil => intro m _ n vs h; exact absurd h (by simp)
  | cons c df ih =>
    intro m hnd n vs hmem
    simp only [List.map_cons, List.nodup_cons] at hnd
    rcases List.mem_cons.mp hmem with hc | hc
    · cases hc
      have hnotin : ∀ c' ∈ df, AKey.str c'.1 ≠ AKey.str n := by
        intro c' hc' heq
        have h' : c'.1 = n := by injection heq
        have hmm : c'.1 ∈ List.map Prod.fst df :=
          List.mem_map_of_mem Prod.fst hc'
        rw [h'] at hmm
        exact hnd.1 hmm
      have hstep : addCols m ((n, vs) :: df) =
          addCols (dictSet m (AKey.str n)
            ((dictGet m (AKey.str n)).getD 0 + vs.sum)) df := rfl
      rw [hstep, addCols_untouched df _ (AKey.str n) hnotin]
      exact dictGet_dictSet_self m (AKey.str n) _
    · have hstep : addCols m (c :: df) =
          addCols (dictSet m (AKey.str c.1)
            ((dictGet m (AKey.str c.1)).getD 0 + c.2.sum)) df := rfl
      rw [hstep]
      have hcn : c.1 ≠ n := by
        intro h
        exact hnd.1 (h ▸ List.mem_map_of_mem Prod.fst hc)
      have hget : dictGet (dictSet m (AKey.str c.1)
          ((dictGet m (AKey.str c.1)).getD 0 + c.2.sum)) (AKey.str n) =
          dictGet m (AKey.str n) :=
        dictGet_dictSet_ne _ _ _ _ (fun h => hcn (by injection h.symm))
      rw [ih _ hnd.2 n vs hc, hget]

/-- C7: a source table with no recognized category+amount pair takes the
additive branch: each numeric column's full-column sum is ADDED to (not
overwritten over) whatever the running mapping already holds under the
column's name, and every other key is left unchanged.  (Column names of a
parsed table are distinct — `read_csv` renames duplicate headers.) -/
theorem aggStep_uncategorized_accumulates (m : List (AKey × ℚ)) (t : Table)
    (hnoRole : hasPairOrig t "Role" "Cost_AUD" = false)
    (hnoField : hasPairOrig t "Field" "Value" = false)
    (hnd : (t.map Prod.fst).Nodup) :
    (∀ n vs, (n, vs) ∈ numericCols t →
      dictGet (aggStep m t) (AKey.str n) =
        some ((dictGet m (AKey.str n)).getD 0 + vs.sum)) ∧
    (∀ k, (∀ c ∈ numericCols t, AKey.str c.1 ≠ k) →
      dictGet (aggStep m t) k = dictGet m k) := by
  have hc1 : (hasCol (numericCols t) "Role" &&
      hasCol (numericCols t) "Cost_AUD") = false := by
    rw [Bool.and_eq_false_iff]
    by_cases h1 : hasCol (numericCols t) "Role" = true
    · right
      by_cases h2 : hasCol (numericCols t) "Cost_AUD" = true
      · exact absurd hnoRole (by
          simp only [hasPairOrig, hasCol_numericCols_orig t _ h1,
            hasCol_numericCols_orig t _ h2, Bool.and_self]
          simp)
      · simpa using h2
    · left; simpa using h1
  have hc2 : (hasCol (numericCols t) "Field" &&
      hasCol (numericCols t) "Value") = false := by
    rw [Bool.and_eq_false_iff]
    by_cases h1 : hasCol (numericCols t) "Field" = true
    · right
      by_cases h2 : hasCol (numericCols t) "Value" = true
      · exact absurd hnoField (by
          simp only [hasPairOrig, hasCol_numericCols_orig t _ h1,
            hasCol_numericCols_orig t _ h2, Bool.and_self]
          simp)
      · simpa using h2
    · left; simpa using h1
  have hagg : aggStep m t = addCols m (numericCols t) := by
    simp only [aggStep, hc1, hc2, Bool.false_eq_true, if_false]
  have hndc : ((numericCols t).map Prod.fst).Nodup :=
    hnd.sublist (numericCols_names_sublist t)
  constructor
  · intro n vs hmem
    rw [hagg]
    exact addCols_accumulates (numericCols t) m hndc n vs hmem
  · intro k hk
    rw [hagg]
    exact addCols_untouched (numericCols t) m k hk

/-- A pairless demonstration table: numeric columns A and C, a string
column B. -/
def plainTable : Table :=
  [("A", ColData.num [3]), ("B", ColData.str ["x"]), ("C", ColData.num [4, 5])]

/-- Witness for C7 at a concrete input: with 10 already accumulated under
"A", the pairless table adds its A-column sum 3, giving 13, and leaves the
unrelated key "z" unchanged. -/
theorem aggStep_uncategorized_accumulates_witness :
    dictGet (aggStep [(AKey.str "A", 10), (AKey.str "z", 7)] plainTable)
        (AKey.str "A") = some 13 ∧
      dictGet (aggStep [(AKey.str "A", 10), (AKey.str "z", 7)] plainTable)
        (AKey.str "z") = some 7 := by
  have h := aggStep_uncategorized_accumulates
    [(AKey.str "A", 10), (AKey.str "z", 7)] plainTable
    (by decide) (by decide) (by decide)
  constructor
  · have h1 := h.1 "A" [3] (by decide)
    rw [h1]
    with_unfolding_all decide
  · have h2 := h.2 (AKey.str "z") (by decide)
    rw [h2]
    with_unfolding_all decide

/-!
## The inference client (`call_groq`, main.py lines 9-35)

The loop is modelled over an abstract response stream `resp : Nat → HttpResp`
giving the status and first-completion content of the i-th request (requests
resolve redirects, so a surfaced status is 2xx, 4xx or 5xx;
`raise_for_status` raises exactly for statuses ≥ 400).  The model returns
the outcome together with the list of waits performed and the number of
requests made.
-/

/-- An HTTP response: status code and the first completion's text. -/
structure HttpResp where
  status : Nat
  content : List Char

/-- Outcome of `call_groq`: the trimmed completion text, an immediate HTTP
error (`raise_for_status`), or the exhausted-retries exception of
main.py line 35. -/
inductive GroqOutcome where
  | ok : List Char → GroqOutcome
  | httpError : Nat → GroqOutcome
  | rateLimitExceeded : GroqOutcome
deriving DecidableEq

/-- The retry loop of `call_groq` (main.py lines 25-35), from attempt
index `i` with `r` attempts remaining: on status 429 wait
`backoff_factor * (i + 1)` and retry, on status ≥ 400 raise, otherwise
return the trimmed content.  Returns (outcome, waits, requests made). -/
def callLoop (resp : Nat → HttpResp) (backoff_factor : Nat) :
    Nat → Nat → GroqOutcome × List Nat × Nat
  | _, 0 => (GroqOutcome.rateLimitExceeded, [], 0)
  | i, r + 1 =>
    let rp := resp i
    if rp.status = 429 then
      let rest := callLoop resp backoff_factor (i + 1) r
      (rest.1, backoff_factor * (i + 1) :: rest.2.1, rest.2.2 + 1)
    else if 400 ≤ rp.status then (GroqOutcome.httpError rp.status, [], 1)
    else (GroqOutcome.ok (pyTrim rp.content), [], 1)

/-- Shallow embedding of `call_groq` with its default arguments
`retries=3`, `backoff_factor=1` kept as parameters. -/
def call_groq (resp : Nat → HttpResp) (retries backoff_factor : Nat) :
    GroqOutcome × List Nat × Nat :=
  callLoop resp backoff_factor 0 retries

/-- C5: with the default budget of 3 retries, the client makes at most 3
requests; while rate-limited it waits backoff_factor × attemptNumber
before each retry; three straight 429s give the exhausted-retries error
after waits 1·b, 2·b, 3·b; the first non-429 response ends the loop at
once — an error outcome if its status is an error status (≥ 400), and
otherwise the trimmed first-completion text with no further requests. -/
theorem call_groq_retry_policy (resp : Nat → HttpResp) (b : Nat) :
    (call_groq resp 3 b).2.2 ≤ 3 ∧
    ((∀ i, i < 3 → (resp i).status = 429) →
      call_groq resp 3 b =
        (GroqOutcome.rateLimitExceeded, [b * 1, b * 2, b * 3], 3)) ∧
    (∀ i, i < 3 → (∀ j, j < i → (resp j).status = 429) →
      (resp i).status ≠ 429 → 400 ≤ (resp i).status →
      call_groq resp 3 b =
        (GroqOutcome.httpError (resp i).status,
          (List.range i).map (fun j => b * (j + 1)), i + 1)) ∧
    (∀ i, i < 3 → (∀ j, j < i → (resp j).status = 429) →
      (resp i).status ≠ 429 → (resp i).status < 400 →
      call_groq resp 3 b =
        (GroqOutcome.ok (pyTrim (resp i).content),
          (List.range i).map (fun j => b * (j + 1)), i + 1)) := by
  refine ⟨?_, ?_, ?_, ?_⟩
  · by_cases h0 : (resp 0).status = 429 <;>
      by_cases h1 : (resp 1).status = 429 <;>
        by_cases h2 : (resp 2).status = 429 <;>
          simp [call_groq, callLoop, h0, h1, h2] <;>
            split <;> simp
  · intro hall
    have h0 := hall 0 (by omega)
    have h1 := hall 1 (by omega)
    have h2 := hall 2 (by omega)
    simp [call_groq, callLoop, h0, h1, h2]
  · intro i hi hprev hne herr
    interval_cases i
    · simp [call_groq, callLoop, if_neg hne, if_pos herr]
    · have h0 := hprev 0 (by omega)
      simp [call_groq, callLoop, h0, if_neg hne, if_pos herr, List.range_succ]
    · have h0 := hprev 0 (by omega)
      have h1 := hprev 1 (by omega)
      simp [call_groq, callLoop, h0, h1, if_neg hne, if_pos herr,
        List.range_succ]
  · intro i hi hprev hne hok
    have herr : ¬(400 ≤ (resp i).status) := by omega
    interval_cases i
    · simp [call_groq, callLoop, if_neg hne, if_neg herr]
    · have h0 := hprev 0 (by omega)
      simp [call_groq, callLoop, h0, if_neg hne, if_neg herr, List.range_succ]
    · have h0 := hprev 0 (by omega)
      have h1 := hprev 1 (by omega)
      simp [call_groq, callLoop, h0, h1, if_neg hne, if_neg herr,
        List.range_succ]

/-- Witness for C5: a stream answering 429, 429, then success 200 with
body " ok " makes 3 requests, waits 1 then 2 seconds, and returns the
trimmed text "ok". -/
theorem call_groq_retry_policy_witness :
    call_groq
      (fun i => if i < 2 then ⟨429, " retry ".toList⟩ else ⟨200, " ok ".toList⟩)
      3 1 = (GroqOutcome.ok "ok".toList, [1, 2], 3) := by
  have h := (call_groq_retry_policy
    (fun i => if i < 2 then ⟨429, " retry ".toList⟩ else ⟨200, " ok ".toList⟩)
    1).2.2.2 2 (by omega) (by intro j hj; interval_cases j <;> decide)
    (by decide) (by decide)
  rw [h]
  decide

/-!
## The orchestrator (`populate_template_excel`, main.py lines 91-143)

The sheet scan is modelled as a fold over the cells in iteration order.  A
cell's value is `some s` for a string-valued cell and `none` otherwise.
The AI matcher is an oracle `ai : Nat → List Char → Option (List Char)`
giving, for the n-th placeholder processed (`total` at call time) and its
text, either the proposed key or `none` for a raised exception (network
failure, exhausted retries, …).  The lookup table is passed as an
association list with string keys (the keys of `cost_lookup` as produced
by the nominal sources).  Written cells live in an association-list sheet
keyed by (row, column).
-/

/-- A spreadsheet cell: position and optional string value. -/
structure Cell where
  row : Nat
  col : Nat
  val : Option (List Char)

/-- The orchestrator's mutable state: the accepted mappings dict, the
written cells, and the three counters. -/
structure RunState where
  mappings : List (List Char × List Char)
  sheet : List ((Nat × Nat) × ℚ)
  success : Nat
  total : Nat
  suspicious : Nat
deriving DecidableEq

/-- The all-zero initial state of a run (main.py lines 101-104). -/
def initState : RunState := ⟨[], [], 0, 0, 0⟩

/-- Cell detection (main.py line 108): a string value whose trimmed text
starts with the marker glyph. -/
def isPlaceholderVal (v : List Char) : Bool :=
  ['◦'].isPrefixOf (pyTrim v)

/-- Python `round(v, 2)` modelled as exact rational rounding to two
decimal places (floats round half to even; the difference can only show
at exact half-cent values, which the claims do not depend on). -/
def round2 (q : ℚ) : ℚ := (round (100 * q) : ℤ) / 100

/-- The matched key decided by lines 114-121: the AI key if it passes the
gate, else the fallback key if it exists and passes the gate, else none
(suspicious). -/
def matchedKeyOf (keys : List (List Char)) (p mk0 : List Char) :
    Option (List Char) :=
  if is_semantic_match p mk0 then some mk0
  else
    match fallback_match p keys with
    | some fk => if is_semantic_match p fk then some fk else none
    | none => none

/-- The three terminal outcomes of one placeholder. -/
inductive Outcome where
  | writtenSuccess : Outcome
  | recordedNoValue : Outcome
  | suspicious : Outcome
deriving DecidableEq

/-- Processing of one placeholder (main.py lines 109-130), given its cell
position `pos` and trimmed text `p`; returns the new state and the
outcome. -/
def processPlaceholder (lookup : List (List Char × ℚ))
    (ai : Nat → List Char → Option (List Char)) (st : RunState)
    (pos : Nat × Nat) (p : List Char) : RunState × Outcome :=
  let st1 := { st with total := st.total + 1 }
  match ai st.total p with
  | none =>
    ({ st1 with suspicious := st1.suspicious + 1 }, Outcome.suspicious)
  | some mk0 =>
    match matchedKeyOf (lookup.map Prod.fst) p mk0 with
    | none =>
      ({ st1 with suspicious := st1.suspicious + 1 }, Outcome.suspicious)
    | some mk =>
      let st2 := { st1 with mappings := dictSet st1.mappings p mk }
      match dictGet lookup mk with
      | some v =>
        ({ st2 with
            sheet := dictSet st2.sheet (pos.1, pos.2 + 1) (round2 v),
            success := st2.success + 1 }, Outcome.writtenSuccess)
      | none => (st2, Outcome.recordedNoValue)

/-- Processing of one cell of the sheet scan (main.py lines 106-130). -/
def processCell (lookup : List (List Char × ℚ))
    (ai : Nat → List Char → Option (List Char)) (st : RunState) (c : Cell) :
    RunState :=
  match c.val with
  | some v =>
    if isPlaceholderVal v then
      (processPlaceholder lookup ai st (c.row, c.col) (pyTrim v)).1
    else st
  | none => st

/-- The whole scan: a left fold of `processCell` over the cells in
iteration order. -/
def runCells (lookup : List (List Char × ℚ))
    (ai : Nat → List Char → Option (List Char)) (st : RunState)
    (cells : List Cell) : RunState :=
  cells.foldl (processCell lookup ai) st

/-- `accuracy = (success / total) * 100 if total > 0 else 0`
(main.py line 139). -/
def accuracy (st : RunState) : ℚ :=
  if 0 < st.total then ((st.success : ℚ) / st.total) * 100 else 0

/-- `data_correctness = ((success - suspicious) / success) * 100 if
success > 0 else 0` (main.py line 140). -/
def dataCorrectness (st : RunState) : ℚ :=
  if 0 < st.success then
    (((st.success : ℚ) - st.suspicious) / st.success) * 100
  else 0

/-- C6: every placeholder cell ends in exactly one of the three outcomes.
The step always returns exactly one `Outcome`, the counter `total` always
advances by one, and the three outcomes have mutually exclusive effects:
written-success increments `success` (not `suspicious`) and writes the
adjacent cell and records the mapping; recorded-no-value records the
mapping but touches neither counter nor the sheet; suspicious increments
`suspicious` (not `success`) and leaves mapping and sheet untouched. -/
theorem processPlaceholder_outcome_trichotomy
    (lookup : List (List Char × ℚ))
    (ai : Nat → List Char → Option (List Char)) (st : RunState)
    (pos : Nat × Nat) (p : List Char) :
    ((processPlaceholder lookup ai st pos p).2 = Outcome.writtenSuccess ∨
      (processPlaceholder lookup ai st pos p).2 = Outcome.recordedNoValue ∨
      (processPlaceholder lookup ai st pos p).2 = Outcome.suspicious) ∧
    (processPlaceholder lookup ai st pos p).1.total = st.total + 1 ∧
    ((processPlaceholder lookup ai st pos p).2 = Outcome.writtenSuccess →
      (processPlaceholder lookup ai st pos p).1.success = st.success + 1 ∧
      (processPlaceholder lookup ai st pos p).1.suspicious = st.suspicious ∧
      (∃ v, dictGet (processPlaceholder lookup ai st pos p).1.sheet
        (pos.1, pos.2 + 1) = some v) ∧
      (∃ mk, dictGet (processPlaceholder lookup ai st pos p).1.mappings p =
        some mk)) ∧
    ((processPlaceholder lookup ai st pos p).2 = Outcome.recordedNoValue →
      (processPlaceholder lookup ai st pos p).1.success = st.success ∧
      (processPlaceholder lookup ai st pos p).1.suspicious = st.suspicious ∧
      (processPlaceholder lookup ai st pos p).1.sheet = st.sheet ∧
      (∃ mk, dictGet (processPlaceholder lookup ai st pos p).1.mappings p =
        some mk)) ∧
    ((processPlaceholder lookup ai st pos p).2 = Outcome.suspicious →
      (processPlaceholder lookup ai st pos p).1.suspicious =
        st.suspicious + 1 ∧
      (processPlaceholder lookup ai st pos p).1.success = st.success ∧
      (processPlaceholder lookup ai st pos p).1.sheet = st.sheet ∧
      (processPlaceholder lookup ai st pos p).1.mappings = st.mappings) := by
  unfold processPlaceholder
  cases hai : ai st.total p with
  | none => simp
  | some mk0 =>
    cases hmk : matchedKeyOf (lookup.map Prod.fst) p mk0 with
    | none => simp [hmk]
    | some mk =>
      cases hv : dictGet lookup mk with
      | none =>
        simp only [hmk, hv]
        refine ⟨by simp, by trivial, by simp, ?_, by simp⟩
        intro _
        simp [dictGet_dictSet_self]
      | some v =>
        simp only [hmk, hv]
        refine ⟨by simp, by trivial, ?_, by simp, by simp⟩
        intro _
        simp [dictGet_dictSet_self]

/-- Witness for C6 at a concrete accepted placeholder: AI proposes "alpha",
the gate passes, the value 1 is present, so the outcome is written-success
with `success` going 0 → 1 and the adjacent cell (2, 4) written. -/
theorem processPlaceholder_outcome_trichotomy_witness :
    (processPlaceholder [("alpha".toList, 1)] (fun _ _ => some "alpha".toList)
        initState (2, 3) "◦ x".toList).1.success = 0 + 1 ∧
      (∃ v, dictGet (processPlaceholder [("alpha".toList, 1)]
          (fun _ _ => some "alpha".toList) initState (2, 3)
          "◦ x".toList).1.sheet (2, 3 + 1) = some v) := by
  have h := (processPlaceholder_outcome_trichotomy [("alpha".toList, 1)]
    (fun _ _ => some "alpha".toList) initState (2, 3) "◦ x".toList).2.2.1
    (by decide)
  exact ⟨h.1, h.2.2.1⟩

/-- C8: when the AI key fails the Semantic Gate and the fallback either
returns nothing or returns a key that also fails the gate, the placeholder's
cell leaves the sheet, the mappings and the success counter untouched:
processing the cell only advances `total` and `suspicious`, and the run
continues with the remaining cells from that state. -/
theorem rejected_placeholder_frame (lookup : List (List Char × ℚ))
    (ai : Nat → List Char → Option (List Char)) (st : RunState) (c : Cell)
    (rest : List Cell) (v mk0 : List Char)
    (hval : c.val = some v) (hph : isPlaceholderVal v = true)
    (hai : ai st.total (pyTrim v) = some mk0)
    (hgate : is_semantic_match (pyTrim v) mk0 = false)
    (hfb : ∀ fk, fallback_match (pyTrim v) (lookup.map Prod.fst) = some fk →
      is_semantic_match (pyTrim v) fk = false) :
    runCells lookup ai st (c :: rest) =
      runCells lookup ai
        { st with total := st.total + 1, suspicious := st.suspicious + 1 }
        rest := by
  have hmk : matchedKeyOf (lookup.map Prod.fst) (pyTrim v) mk0 = none := by
    unfold matchedKeyOf
    cases hf : fallback_match (pyTrim v) (lookup.map Prod.fst) with
    | none => simp [hgate, hf]
    | some fk => simp [hgate, hf, hfb fk hf]
  have hcell : processCell lookup ai st c =
      { st with total := st.total + 1, suspicious := st.suspicious + 1 } := by
    simp only [processCell, hval, hph, if_pos, processPlaceholder, hai, hmk]
  show (c :: rest).foldl (processCell lookup ai) st = _
  rw [List.foldl_cons, hcell]
  rfl

set_option maxRecDepth 100000 in
/-- Witness for C8: placeholder "◦ nurse", AI key "availablebeddays"
(rejected by rule 1), fallback empty-handed (ratio 2/21 < 0.4): the run on
this single cell ends with nothing written, no mapping, total = 1,
suspicious = 1. -/
theorem rejected_placeholder_frame_witness :
    runCells [("availablebeddays".toList, 5)]
        (fun _ _ => some "availablebeddays".toList) initState
        [⟨1, 1, some "◦ nurse".toList⟩] =
      { initState with total := 1, suspicious := 1 } := by
  have h := rejected_placeholder_frame [("availablebeddays".toList, 5)]
    (fun _ _ => some "availablebeddays".toList) initState
    ⟨1, 1, some "◦ nurse".toList⟩ [] "◦ nurse".toList
    "availablebeddays".toList rfl (by decide) rfl (by decide)
    (by
      intro fk hf
      have hnone : fallback_match (pyTrim "◦ nurse".toList)
          (List.map Prod.fst [("availablebeddays".toList, (5 : ℚ))]) =
          none := by decide
      rw [hnone] at hf
      cases hf)
  exact h

/-- One cell never lets `success` overtake `total`. -/
theorem processCell_success_le_total (lookup : List (List Char × ℚ))
    (ai : Nat → List Char → Option (List Char)) (st : RunState) (c : Cell)
    (h : st.success ≤ st.total) :
    (processCell lookup ai st c).success ≤
      (processCell lookup ai st c).total := by
  unfold processCell
  cases hval : c.val with
  | none => exact h
  | some v =>
    by_cases hph : isPlaceholderVal v = true
    · simp only [hph, if_pos]
      unfold processPlaceholder
      cases hai : ai st.total (pyTrim v) with
      | none => simpa using Nat.le_succ_of_le h
      | some mk0 =>
        cases hmk : matchedKeyOf (lookup.map Prod.fst) (pyTrim v) mk0 with
        | none =>
          simp only [hmk]
          simpa using Nat.le_succ_of_le h
        | some mk =>
          cases hv : dictGet lookup mk with
          | none =>
            simp only [hmk, hv]
            simpa using Nat.le_succ_of_le h
          | some v' =>
            simp only [hmk, hv]
            simpa using Nat.succ_le_succ h
    · simp only [Bool.not_eq_true] at hph
      simp [hph, h]

/-- Across a whole run, `success ≤ total`. -/
theorem runCells_success_le_total (lookup : List (List Char × ℚ))
    (ai : Nat → List Char → Option (List Char)) :
    ∀ (cells : List Cell) (st : RunState), st.success ≤ st.total →
      (runCells lookup ai st cells).success ≤
        (runCells lookup ai st cells).total := by
  intro cells
  induction cells with
  | nil => intro st h; exact h
  | cons c cells ih =>
    intro st h
    exact ih _ (processCell_success_le_total lookup ai st c h)

/-- C2 (amended): over any run from the zero counters, `accuracy` lies in
[0, 100] and is 0 when `total` is 0; `dataCorrectness` is at most 100, is 0
when `success` is 0, but has NO lower bound of 0 — it is negative whenever
suspicious placeholders outnumber successful ones (see the
counterexample). -/
theorem metrics_bounds (lookup : List (List Char × ℚ))
    (ai : Nat → List Char → Option (List Char)) (cells : List Cell) :
    0 ≤ accuracy (runCells lookup ai initState cells) ∧
    accuracy (runCells lookup ai initState cells) ≤ 100 ∧
    ((runCells lookup ai initState cells).total = 0 →
      accuracy (runCells lookup ai initState cells) = 0) ∧
    dataCorrectness (runCells lookup ai initState cells) ≤ 100 ∧
    ((runCells lookup ai initState cells).success = 0 →
      dataCorrectness (runCells lookup ai initState cells) = 0) := by
  have hst : (runCells lookup ai initState cells).success ≤
      (runCells lookup ai initState cells).total :=
    runCells_success_le_total lookup ai cells initState (by simp [initState])
  refine ⟨?_, ?_, ?_, ?_, ?_⟩
  · rw [accuracy]
    split
    · positivity
    · norm_num
  · rw [accuracy]
    split
    · rename_i hpos
      have ht : (0 : ℚ) < (runCells lookup ai initState cells).total := by
        exact_mod_cast hpos
      have h1 : ((runCells lookup ai initState cells).success : ℚ) /
          (runCells lookup ai initState cells).total ≤ 1 :=
        (div_le_one ht).mpr (by exact_mod_cast hst)
      calc ((runCells lookup ai initState cells).success : ℚ) /
            (runCells lookup ai initState cells).total * 100 ≤ 1 * 100 :=
              mul_le_mul_of_nonneg_right h1 (by norm_num)
        _ = 100 := by norm_num
    · norm_num
  · intro h0
    rw [accuracy, h0]
    norm_num
  · rw [dataCorrectness]
    split
    · rename_i hpos
      have hs : (0 : ℚ) < (runCells lookup ai initState cells).success := by
        exact_mod_cast hpos
      have h1 : (((runCells lookup ai initState cells).success : ℚ) -
          (runCells lookup ai initState cells).suspicious) /
          (runCells lookup ai initState cells).success ≤ 1 := by
        rw [div_le_one hs]
        have : (0 : ℚ) ≤ (runCells lookup ai initState cells).suspicious := by
          positivity
        linarith
      calc (((runCells lookup ai initState cells).success : ℚ) -
            (runCells lookup ai initState cells).suspicious) /
            (runCells lookup ai initState cells).success * 100 ≤ 1 * 100 :=
              mul_le_mul_of_nonneg_right h1 (by norm_num)
        _ = 100 := by norm_num
    · norm_num
  · intro h0
    rw [dataCorrectness, h0]
    norm_num

/-- Witness for C2 (amended): the empty run has zero totals, so both
metrics report 0. -/
theorem metrics_bounds_witness :
    accuracy (runCells [] (fun _ _ => none) initState []) = 0 ∧
    dataCorrectness (runCells [] (fun _ _ => none) initState []) = 0 := by
  have h := metrics_bounds [] (fun _ _ => none) []
  exact ⟨h.2.2.1 (by decide), h.2.2.2.2 (by decide)⟩

/-- Three placeholder cells for the C2 counterexample. -/
def cexCells : List Cell :=
  [⟨1, 1, some "◦ a".toList⟩, ⟨2, 1, some "◦ b".toList⟩,
   ⟨3, 1, some "◦ c".toList⟩]

/-- An AI oracle that raises on the first two placeholders and proposes the
key "k" for the third. -/
def cexAi : Nat → List Char → Option (List Char) :=
  fun i _ => if i = 2 then some "k".toList else none

/-- The lookup table of the C2 counterexample. -/
def cexLookup : List (List Char × ℚ) := [("k".toList, 1)]

/-- Counterexample to C2: a reachable run with success = 1 and
suspicious = 2 reports `dataCorrectness = (1 - 2)/1 × 100 = -100`,
outside [0, 100]. -/
theorem dataCorrectness_below_zero_cex :
    dataCorrectness (runCells cexLookup cexAi initState cexCells) = -100 ∧
    ¬(0 ≤ dataCorrectness (runCells cexLookup cexAi initState cexCells)) := by
  have hs : (runCells cexLookup cexAi initState cexCells).success = 1 := by
    decide
  have hp : (runCells cexLookup cexAi initState cexCells).suspicious = 2 := by
    decide
  have h : dataCorrectness (runCells cexLookup cexAi initState cexCells) =
      -100 := by
    rw [dataCorrectness, hs, hp]
    norm_num
  exact ⟨h, by rw [h]; norm_num⟩

/-- A key of `dictSet m k v` is `k` or a key of `m`. -/
theorem mem_keys_dictSet {α β : Type} [DecidableEq α] :
    ∀ (m : List (α × β)) (k : α) (v : β) (a : α),
      a ∈ (dictSet m k v).map Prod.fst → a = k ∨ a ∈ m.map Prod.fst := by
  intro m k v a
  induction m with
  | nil =>
    intro h
    simp [dictSet] at h
    exact Or.inl h
  | cons p m ih =>
    by_cases hp : p.1 = k
    · intro h
      simp only [dictSet, hp, if_pos, List.map_cons, List.mem_cons] at h
      rcases h with h | h
      · exact Or.inl h
      · exact Or.inr (by simp [h])
    · intro h
      simp only [dictSet, hp, if_false, List.map_cons, List.mem_cons] at h
      rcases h with h | h
      · exact Or.inr (by simp [h])
      · rcases ih h with h' | h'
        · exact Or.inl h'
        · exact Or.inr (by simp [h'])

/-- `dictSet` keeps the keys distinct. -/
theorem dictSet_keys_nodup {α β : Type} [DecidableEq α] :
    ∀ (m : List (α × β)) (k : α) (v : β), (m.map Prod.fst).Nodup →
      ((dictSet m k v).map Prod.fst).Nodup := by
  intro m k v
  induction m with
  | nil => intro _; simp [dictSet]
  | cons p m ih =>
    intro hnd
    simp only [List.map_cons, List.nodup_cons] at hnd
    by_cases hp : p.1 = k
    · simp only [dictSet, hp, if_pos, List.map_cons, List.nodup_cons]
      exact ⟨by rw [← hp]; exact hnd.1, hnd.2⟩
    · simp only [dictSet, hp, if_false, List.map_cons, List.nodup_cons]
      refine ⟨?_, ih hnd.2⟩
      intro hmem
      rcases mem_keys_dictSet m k v p.1 hmem with h | h
      · exact hp h
      · exact hnd.1 h

/-- One cell keeps the mapping keys distinct. -/
theorem processCell_mappings_nodup (lookup : List (List Char × ℚ))
    (ai : Nat → List Char → Option (List Char)) (st : RunState) (c : Cell)
    (h : (st.mappings.map Prod.fst).Nodup) :
    ((processCell lookup ai st c).mappings.map Prod.fst).Nodup := by
  unfold processCell
  cases hval : c.val with
  | none => exact h
  | some v =>
    by_cases hph : isPlaceholderVal v = true
    · simp only [hph, if_pos]
      unfold processPlaceholder
      cases hai : ai st.total (pyTrim v) with
      | none => exact h
      | some mk0 =>
        cases hmk : matchedKeyOf (lookup.map Prod.fst) (pyTrim v) mk0 with
        | none =>
          simp only [hmk]
          exact h
        | some mk =>
          cases hv : dictGet lookup mk with
          | none =>
            simp only [hmk, hv]
            exact dictSet_keys_nodup st.mappings (pyTrim v) mk h
          | some v' =>
            simp only [hmk, hv]
            exact dictSet_keys_nodup st.mappings (pyTrim v) mk h
    · simp only [Bool.not_eq_true] at hph
      simp [hph, h]

/-- C10: two distinct placeholder cells carrying the same trimmed text are
both processed — each advances `total`, and when both runs through the
pipeline are accepted and valued, each advances `success` and writes its
own adjacent cell — yet the mapping report keeps a single entry for the
text, holding the SECOND accepted key (last write wins); and over any run
the mapping's keys stay distinct, so there is never more than one entry
per distinct placeholder text. -/
theorem duplicate_placeholder_last_wins (lookup : List (List Char × ℚ))
    (ai : Nat → List Char → Option (List Char)) (st : RunState)
    (c1 c2 : Cell) (p w1 w2 mk01 mk02 k1 k2 : List Char) (v1 v2 : ℚ)
    (h1v : c1.val = some w1) (h1p : isPlaceholderVal w1 = true)
    (h1t : pyTrim w1 = p)
    (h2v : c2.val = some w2) (h2p : isPlaceholderVal w2 = true)
    (h2t : pyTrim w2 = p)
    (hai1 : ai st.total p = some mk01)
    (hk1 : matchedKeyOf (lookup.map Prod.fst) p mk01 = some k1)
    (hv1 : dictGet lookup k1 = some v1)
    (hai2 : ai (st.total + 1) p = some mk02)
    (hk2 : matchedKeyOf (lookup.map Prod.fst) p mk02 = some k2)
    (hv2 : dictGet lookup k2 = some v2)
    (hpos : (c1.row, c1.col + 1) ≠ (c2.row, c2.col + 1)) :
    ((runCells lookup ai st [c1, c2]).total = st.total + 2 ∧
      (runCells lookup ai st [c1, c2]).success = st.success + 2 ∧
      dictGet (runCells lookup ai st [c1, c2]).mappings p = some k2 ∧
      dictGet (runCells lookup ai st [c1, c2]).sheet (c1.row, c1.col + 1) =
        some (round2 v1) ∧
      dictGet (runCells lookup ai st [c1, c2]).sheet (c2.row, c2.col + 1) =
        some (round2 v2)) ∧
    (∀ (cells : List Cell) (st0 : RunState),
      (st0.mappings.map Prod.fst).Nodup →
      ((runCells lookup ai st0 cells).mappings.map Prod.fst).Nodup) := by
  constructor
  · have hst1 : processCell lookup ai st c1 =
        { mappings := dictSet st.mappings p k1,
          sheet := dictSet st.sheet (c1.row, c1.col + 1) (round2 v1),
          success := st.success + 1,
          total := st.total + 1,
          suspicious := st.suspicious } := by
      simp only [processCell, h1v, h1p, if_pos, h1t, processPlaceholder,
        hai1, hk1, hv1]
    have hst2 : processCell lookup ai (processCell lookup ai st c1) c2 =
        { mappings := dictSet (dictSet st.mappings p k1) p k2,
          sheet := dictSet (dictSet st.sheet (c1.row, c1.col + 1)
            (round2 v1)) (c2.row, c2.col + 1) (round2 v2),
          success := st.success + 2,
          total := st.total + 2,
          suspicious := st.suspicious } := by
      rw [hst1]
      simp only [processCell, h2v, h2p, if_pos, h2t, processPlaceholder,
        hai2, hk2, hv2]
    have hrun : runCells lookup ai st [c1, c2] =
        processCell lookup ai (processCell lookup ai st c1) c2 := rfl
    rw [hrun, hst2]
    refine ⟨rfl, rfl, dictGet_dictSet_self _ _ _, ?_, ?_⟩
    · rw [dictGet_dictSet_ne _ _ _ _ hpos]
      exact dictGet_dictSet_self _ _ _
    · exact dictGet_dictSet_self _ _ _
  · intro cells
    induction cells with
    | nil => intro st0 h; exact h
    | cons c cells ih =>
      intro st0 h
      exact ih _ (processCell_mappings_nodup lookup ai st0 c h)

/-- Witness for C10: the placeholder "◦ x" appears in two cells; the AI
proposes "alpha" for the first and "beta" for the second, both accepted and
valued, so the run ends with total 2, success 2, both adjacent cells
written, and the single mapping entry for "◦ x" holds "beta". -/
theorem duplicate_placeholder_last_wins_witness :
    (runCells [("alpha".toList, 1), ("beta".toList, 2)]
        (fun i _ => if i = 0 then some "alpha".toList else some "beta".toList)
        initState [⟨1, 1, some "◦ x".toList⟩, ⟨2, 1, some "◦ x".toList⟩]).total
        = 0 + 2 ∧
      (runCells [("alpha".toList, 1), ("beta".toList, 2)]
        (fun i _ => if i = 0 then some "alpha".toList else some "beta".toList)
        initState
        [⟨1, 1, some "◦ x".toList⟩, ⟨2, 1, some "◦ x".toList⟩]).success
        = 0 + 2 ∧
      dictGet (runCells [("alpha".toList, 1), ("beta".toList, 2)]
        (fun i _ => if i = 0 then some "alpha".toList else some "beta".toList)
        initState
        [⟨1, 1, some "◦ x".toList⟩, ⟨2, 1, some "◦ x".toList⟩]).mappings
        "◦ x".toList = some "beta".toList := by
  have h := (duplicate_placeholder_last_wins
    [("alpha".toList, 1), ("beta".toList, 2)]
    (fun i _ => if i = 0 then some "alpha".toList else some "beta".toList)
    initState ⟨1, 1, some "◦ x".toList⟩ ⟨2, 1, some "◦ x".toList⟩
    "◦ x".toList "◦ x".toList "◦ x".toList "alpha".toList "beta".toList
    "alpha".toList "beta".toList 1 2
    rfl (by decide) (by decide) rfl (by decide) (by decide)
    rfl (by decide) (by decide) rfl (by decide) (by decide)
    (by decide)).1
  exact ⟨h.1, h.2.1, h.2.2.1⟩
